import Mathlib

/-!
Verification of the stationarity-enforcing parameter transformations in
`statsmodels/tsa/statespace/tools.py`.

The Python code operates on numpy arrays of floating point numbers.  The
shallow embedding below models the arithmetic over the real numbers `ℝ`
(exact arithmetic), arrays of scalars as functions `ℕ → ℝ` together with an
explicit length, square `k × k` matrices as `Matrix (Fin k) (Fin k) ℝ`, and
lists of matrices as `List` values.  An operation that can raise a Python
exception (`scipy.linalg.cholesky` / `cho_factor` raise `LinAlgError` on a
matrix that is not positive definite, `scipy.linalg.solve_discrete_lyapunov`
raises on a singular linear system) is modelled as an `Option`-valued
function returning `none` exactly on the raising inputs; functions built
from them propagate `none` the way an exception propagates.
-/

namespace SST

open Matrix

noncomputable section

/-- Square real matrix of size `k`, the type of the numpy `(k, k)` float arrays
used throughout the transforms. -/
abbrev Mat (k : ℕ) : Type := Matrix (Fin k) (Fin k) ℝ

/-! ## Univariate transforms

`constrain_stationary_univariate` (tools.py lines 300-335) and
`unconstrain_stationary_univariate` (lines 338-373).  The auxiliary
lower-triangular array `y` is represented row-wise: a row is a function
`ℕ → ℝ` that is zero beyond the entries the Python code ever writes.
-/

/-- The squashing map `r = u / (1 + u**2)**0.5` applied elementwise at
line 330 of `constrain_stationary_univariate`. -/
def squash (u : ℝ) : ℝ := u / Real.sqrt (1 + u ^ 2)

/-- Its algebraic inverse `x = r / (1 - r**2)**0.5` from line 372 of
`unconstrain_stationary_univariate`. -/
def unsquash (r : ℝ) : ℝ := r / Real.sqrt (1 - r ^ 2)

/-- Row `k` of the auxiliary array `y` built by the forward loop of
`constrain_stationary_univariate` (lines 331-334):
`y[k, i] = y[k-1, i] + r[k] * y[k-1, k-i-1]` for `i < k`, `y[k, k] = r[k]`,
and zero in the entries the loop never writes. -/
def consRows (r : ℕ → ℝ) : ℕ → ℕ → ℝ
  | 0 => fun i => if i = 0 then r 0 else 0
  | k + 1 => fun i =>
      if i < k + 1 then consRows r k i + r (k + 1) * consRows r k (k - i)
      else if i = k + 1 then r (k + 1) else 0

/-- The embedded `constrain_stationary_univariate` on an array of length `n`:
the result is `-y[n-1, :]` (line 335). -/
def constrainStationaryUnivariate (n : ℕ) (u : ℕ → ℝ) : ℕ → ℝ :=
  fun i => -consRows (fun j => squash (u j)) (n - 1) i

/-- One step of the backward loop of `unconstrain_stationary_univariate`
(lines 368-370): given row `kp1 = k+1` of `y` it produces row `k`,
`y[k, i] = (y[k+1, i] - y[k+1, k+1] * y[k+1, k-i]) / (1 - y[k+1, k+1]**2)`
for `i < k + 1` and zero elsewhere. -/
def stepDown (kp1 : ℕ) (row : ℕ → ℝ) : ℕ → ℝ := fun i =>
  if i < kp1 then (row i - row kp1 * row (kp1 - 1 - i)) / (1 - row kp1 ^ 2)
  else 0

/-- Rows of the array `y` of `unconstrain_stationary_univariate`, indexed by
the number `j` of backward steps taken from the top row `K = n - 1`
(which is set to `-constrained` at line 367); `unconsRowsDown K top j` is
row `K - j`. -/
def unconsRowsDown (K : ℕ) (top : ℕ → ℝ) : ℕ → ℕ → ℝ
  | 0 => top
  | j + 1 => stepDown (K - j) (unconsRowsDown K top j)

/-- Entry `k` of `y.diagonal()` (line 371) for an input array of length `n`. -/
def unconsDiag (n : ℕ) (c : ℕ → ℝ) (k : ℕ) : ℝ :=
  unconsRowsDown (n - 1) (fun i => if i < n then -c i else 0) (n - 1 - k) k

/-- The embedded `unconstrain_stationary_univariate` on an array of length `n`
(lines 365-373). -/
def unconstrainStationaryUnivariate (n : ℕ) (c : ℕ → ℝ) : ℕ → ℝ :=
  fun k => unsquash (unconsDiag n c k)

/-- The call interface of `unconstrain_stationary_univariate`: the function
body contains no `raise` and calls no library routine that raises (numpy
float division by zero emits a warning and yields `inf`/`nan`, it does not
raise), so the call always returns.  In exact real arithmetic the division
`x / 0` of the degenerate case is represented by Lean's `x / 0 = 0`
convention; the point modelled here is only that a value is returned. -/
def unconstrainStationaryUnivariateCall (n : ℕ) (c : ℕ → ℝ) :
    Option (ℕ → ℝ) :=
  some (unconstrainStationaryUnivariate n c)

/-- Row `k`, written as a function of its own row index, of the backward
array built by `unconstrain_stationary_univariate` on an input of length
`n`. -/
def unconsRowAt (n : ℕ) (c : ℕ → ℝ) (k : ℕ) : ℕ → ℝ :=
  unconsRowsDown (n - 1) (fun i => if i < n then -c i else 0) (n - 1 - k)

/-! ## Companion matrix

`companion_matrix` (tools.py lines 53-170).  The Python function accepts a
bare integer, a scalar polynomial, or a matrix polynomial whose leading
coefficient may be the literal value `1` standing for the identity matrix.
The three input shapes are embedded as three functions; the matrix-polynomial
entry point additionally returns the post-call contents of the caller's list,
since the code assigns `polynomial[0] = np.eye(m)` in the marker case
(line 150).  Arrays built by slice assignments into `np.zeros` are embedded
entrywise.  `np.linalg.inv` is modelled by exact matrix inversion. -/

/-- The embedded `np.linalg.inv` in exact arithmetic (tools.py line 167). -/
def npInv {k : ℕ} (M : Mat k) : Mat k := M⁻¹

/-- The embedded `companion_matrix(n)` for a bare integer `n` (lines 124-127, 156-159):
an `n × n` zero matrix with ones at the entries `(t, t+1)`. -/
def companionMatrixInt (n : ℕ) : Matrix (Fin n) (Fin n) ℝ :=
  Matrix.of fun x y => if (y : ℕ) = (x : ℕ) + 1 then 1 else 0

/-- The embedded `companion_matrix` on a scalar polynomial given as a list of
coefficients in order of increasing degree (lines 129-162): size
`n = len(polynomial) - 1`, first column `-c[1:] / c[0]`, ones at `(t, t+1)`. -/
def companionMatrixScalar (p : List ℝ) :
    Matrix (Fin (p.length - 1)) (Fin (p.length - 1)) ℝ :=
  Matrix.of fun x y =>
    if (y : ℕ) = 0 then -(p.getD ((x : ℕ) + 1) 0) / p.getD 0 0
    else if (y : ℕ) = (x : ℕ) + 1 then 1 else 0

/-- The leading coefficient of a matrix lag polynomial: either the literal
marker `1` (meaning the identity matrix, line 149) or an explicit matrix. -/
inductive Poly0 (m : ℕ) : Type
  | marker : Poly0 m
  | mat : Mat m → Poly0 m

/-- The row index inside a `k_endog`-block of the flat companion matrix. -/
def subIdx {n m : ℕ} (x : Fin (n * m)) : Fin m :=
  ⟨(x : ℕ) % m, by
    have hx := x.isLt
    rcases Nat.eq_zero_or_pos m with h | h
    · subst h; omega
    · exact Nat.mod_lt _ h⟩

/-- The embedded `companion_matrix` on a matrix polynomial (lines 135-170): an
`n*m × n*m` matrix whose first block column holds `-polynomial[i+1].T`
(marker case, line 165) or `-np.dot(inv(C_0), polynomial[i+1]).T`
(general case, line 169), with identity blocks at the entries `(t, t+m)`.
`cs` is the list of coefficients of degree `1, ..., n`. -/
def companionMatrixMatrixPoly (m n : ℕ) (c0 : Poly0 m) (cs : List (Mat m)) :
    Matrix (Fin (n * m)) (Fin (n * m)) ℝ :=
  Matrix.of fun x y =>
    if hy : (y : ℕ) < m then
      (match c0 with
        | Poly0.marker => -((cs.getD ((x : ℕ) / m) 0)ᵀ)
        | Poly0.mat C => -(((npInv C) * cs.getD ((x : ℕ) / m) 0)ᵀ))
        (subIdx x) ⟨(y : ℕ), hy⟩
    else if (y : ℕ) = (x : ℕ) + m then 1 else 0

/-- The full call on a matrix polynomial, together with the contents of the
caller's argument list after the call: in the marker case the code mutates
`polynomial[0] = np.eye(m)` (line 150) before building the matrix. -/
def companionMatrixMatrixPolyCall (m n : ℕ) (poly : Poly0 m × List (Mat m)) :
    Matrix (Fin (n * m)) (Fin (n * m)) ℝ × (Poly0 m × List (Mat m)) :=
  match poly with
  | (Poly0.marker, cs) =>
      (companionMatrixMatrixPoly m n Poly0.marker cs, (Poly0.mat 1, cs))
  | (Poly0.mat C, cs) =>
      (companionMatrixMatrixPoly m n (Poly0.mat C) cs, (Poly0.mat C, cs))

/-! ## Cholesky factorization

`scipy.linalg.cholesky(..., lower=True)`, `scipy.linalg.cho_factor` and
`np.linalg.cholesky` all compute the lower-triangular factor `L` with
positive diagonal such that `L Lᵀ = S`, raising `LinAlgError` when `S` is
not (numerically) positive definite.  In exact arithmetic the factor exists
and is unique exactly on positive definite matrices, so the calls are
modelled as an `Option`-valued function that is `some` of the unique factor
on positive definite input and `none` otherwise. -/

/-- Lower-triangular predicate for square real matrices. -/
def LowerTri {k : ℕ} (L : Mat k) : Prop :=
  L.BlockTriangular OrderDual.toDual

/-- Statement that `L` is the lower Cholesky factor of `S`: lower triangular, strictly
positive diagonal, and `L Lᵀ = S`. -/
def IsCholesky {k : ℕ} (S L : Mat k) : Prop :=
  LowerTri L ∧ (∀ i, 0 < L i i) ∧ L * Lᵀ = S

open scoped Classical in
/-- Model of `scipy.linalg.cholesky` / `scipy.linalg.cho_factor` /
`np.linalg.cholesky` with `lower=True`: `some` of the (unique) lower
Cholesky factor when one exists — exactly on positive definite input — and
`none` (`LinAlgError`) otherwise. -/
def cholO {k : ℕ} (S : Mat k) : Option (Mat k) :=
  if h : ∃ L, IsCholesky S L then some h.choose else none

/-! ## SV constraint (Lemma 2.2) and its inverse

`_constrain_sv_less_than_one_python` (tools.py lines 376-398) and
`_unconstrain_sv_less_than_one` (lines 832-856), with
`order = len(input)`, `k_endog = input[0].shape[0]` (the default arguments
with which the orchestrators call them). -/

/-- The embedded `scipy.linalg.solve_triangular(B, A, lower=True)` in exact arithmetic:
the solution `B⁻¹ A` of `B X = A`. -/
def solveTriangular {k : ℕ} (B A : Mat k) : Mat k := B⁻¹ * A

/-- The embedded `scipy.linalg.solve_triangular(B, A, lower=True, trans='T')` in exact
arithmetic: the solution `(Bᵀ)⁻¹ A` of `Bᵀ X = A`. -/
def solveTriangularT {k : ℕ} (B A : Mat k) : Mat k := (Bᵀ)⁻¹ * A

/-- The embedded `_constrain_sv_less_than_one_python`: for each `A` in order, factor
`B, lower = cho_factor(eye + A Aᵀ, lower=True)` and append
`solve_triangular(B, A, lower=lower)`. -/
def constrainSvLessThanOne {k : ℕ} : List (Mat k) → Option (List (Mat k))
  | [] => some []
  | A :: rest =>
      (cholO (1 + A * Aᵀ)).bind fun B =>
        (constrainSvLessThanOne rest).bind fun tail =>
          some (solveTriangular B A :: tail)

/-- The embedded `_unconstrain_sv_less_than_one`: for each `P` in order, factor
`B_inv, lower = cho_factor(eye - P Pᵀ, lower=True)` and append
`solve_triangular(B_inv, P, lower=lower)`. -/
def unconstrainSvLessThanOne {k : ℕ} : List (Mat k) → Option (List (Mat k))
  | [] => some []
  | P :: rest =>
      (cholO (1 - P * Pᵀ)).bind fun Binv =>
        (unconstrainSvLessThanOne rest).bind fun tail =>
          some (solveTriangular Binv P :: tail)

/-! ## PACF → coefficients (Lemma 2.1 / 2.3)

`_compute_coefficients_from_multivariate_pacf_python` (tools.py lines
401-550).  The `(k_endog, k_endog * order)` arrays holding block rows are
represented as functions `ℕ → Mat k` from block index to block (zero beyond
the written blocks), matching the zero-initialized numpy arrays. -/

/-- Recursion state of the main loop (lines 427-444): block rows
`forwards` / `backwards` (block `j` holds `φ_{s, j+1}` resp. `φ*_{s, j+1}`),
the autocovariance blocks, the forward and backward variances, and their
current Cholesky factors. -/
structure PacfState (k : ℕ) : Type where
  forwards : ℕ → Mat k
  backwards : ℕ → Mat k
  autocovs : ℕ → Mat k
  fwdVar : Mat k
  bwdVar : Mat k
  fwdFac : Mat k
  bwdFac : Mat k

/-- One iteration of the main loop (lines 453-526) at step `s`:
`forwards[s] = forward_factors @ solve_triangular(backward_factors, P_s.T,
lower=True, trans='T').T`, symmetrically for `backwards[s]`; Levinson
updates of blocks `0, ..., s-1` against the previous iterates; the
autocovariance accumulation; the variance downdates; and the two Cholesky
re-factorizations, either of which raises on loss of positive
definiteness. -/
def pacfStep {k : ℕ} (pacs : ℕ → Mat k) (s : ℕ) (st : PacfState k) :
    Option (PacfState k) :=
  let newF := st.fwdFac * (solveTriangularT st.bwdFac (pacs s)ᵀ)ᵀ
  let newB := st.bwdFac * (solveTriangularT st.fwdFac (pacs s))ᵀ
  let tmp := newF * st.bwdVar
  let forwards' := fun j => if j = s then newF
    else if j < s then st.forwards j - newF * st.backwards (s - 1 - j)
    else st.forwards j
  let backwards' := fun j => if j = s then newB
    else if j < s then st.backwards j - newB * st.forwards (s - 1 - j)
    else st.backwards j
  let autocovs' := fun j => if j = s + 1 then
      tmpᵀ + ∑ i ∈ Finset.range s, st.autocovs (i + 1) * (st.forwards (s - 1 - i))ᵀ
    else st.autocovs j
  let bwdVar' := st.bwdVar - newB * st.fwdVar * newBᵀ
  let fwdVar' := st.fwdVar - tmp * newFᵀ
  (cholO fwdVar').bind fun fF =>
    (cholO bwdVar').bind fun bF =>
      some ⟨forwards', backwards', autocovs', fwdVar', bwdVar', fF, bF⟩

/-- The main loop run for steps `s = 0, ..., order-1`. -/
def pacfLoop {k : ℕ} (pacs : ℕ → Mat k) : ℕ → PacfState k → Option (PacfState k)
  | 0, st => some st
  | s + 1, st => (pacfLoop pacs s st).bind (pacfStep pacs s)

/-- Lines 427-530 of `_compute_coefficients_from_multivariate_pacf_python`:
initialize both variances and both Cholesky factors from the (possibly
substituted) `error_variance`, the autocovariance block 0 from it as well,
run the loop, and produce `(forwards, forward_variance)`. -/
def computeCoefficientsCore {k : ℕ} (pacs : ℕ → Mat k) (errorVariance : Mat k)
    (order : ℕ) : Option ((ℕ → Mat k) × Mat k) :=
  (cholO errorVariance).bind fun L0 =>
    (pacfLoop pacs order
        ⟨fun _ => 0, fun _ => 0, fun j => if j = 0 then errorVariance else 0,
          errorVariance, errorVariance, L0, L0⟩).bind fun st =>
      some (st.forwards, st.fwdVar)

/-- The embedded `_compute_coefficients_from_multivariate_pacf_python` (lines 401-550):
when `transform_variance` is false the input variance is saved and the
recursion runs on the surrogate `np.eye(k_endog) * (order + k_endog)**10`
(line 425); afterwards the coefficients are conjugated by
`transform = np.linalg.cholesky(initial_variance) @
np.linalg.inv(np.linalg.cholesky(variance))` (lines 539-548).  When
`transform_variance` is true the recursion's own output is returned. -/
def computeCoefficientsFromMultivariatePacfPython {k : ℕ} (pacs : ℕ → Mat k)
    (errorVariance : Mat k) (order : ℕ) (transformVariance : Bool) :
    Option ((ℕ → Mat k) × Mat k) :=
  let initialVariance := errorVariance
  let errv := if transformVariance then errorVariance
    else (((order + k) ^ 10 : ℕ) : ℝ) • (1 : Mat k)
  (computeCoefficientsCore pacs errv order).bind fun p =>
    if transformVariance then some p
    else
      (cholO initialVariance).bind fun initialVarianceFactor =>
        (cholO p.2).bind fun transformedVarianceFactor =>
          let transform := initialVarianceFactor * npInv transformedVarianceFactor
          some (fun j => if j < order then transform * p.1 j * npInv transform
              else p.1 j,
            p.2)

/-! ## Autocovariances and PACF from coefficients (unconstrain direction)

`_compute_multivariate_acovf_from_coefficients` (tools.py lines 859-908),
`_compute_multivariate_pacf_from_coefficients` (lines 911-1063) and
`unconstrain_stationary_multivariate` (lines 1066-1123), with the default
`order`/`k_endog`/`maxlag` arguments the callers use. -/

open scoped Classical in
/-- The embedded `scipy.linalg.solve_discrete_lyapunov(a, q)` (direct method): the
solution `X` of `X = a X aᵀ + q`.  The underlying dense linear solve raises
`LinAlgError` exactly when the Kronecker system is singular, i.e. when no
unique solution exists. -/
def solveDiscreteLyapunov {d : ℕ} (a q : Matrix (Fin d) (Fin d) ℝ) :
    Option (Matrix (Fin d) (Fin d) ℝ) :=
  if h : ∃! X : Matrix (Fin d) (Fin d) ℝ, a * X * aᵀ + q = X
  then some h.exists.choose else none

/-- The embedded `scipy.linalg.cho_solve((L, True), B)` in exact arithmetic: the solution
`(L Lᵀ)⁻¹ B` of `(L Lᵀ) X = B`. -/
def choSolve {k : ℕ} (L B : Mat k) : Mat k := (L * Lᵀ)⁻¹ * B

/-- The `k × k` block of a stacked `d × d` matrix with row block 0 and
column block `i` (`stacked_cov[:k_endog, i*k_endog:(i+1)*k_endog]`); zero
outside the valid index range, which the code never touches. -/
def stackedBlock {d : ℕ} (k : ℕ) (M : Matrix (Fin d) (Fin d) ℝ) (i : ℕ) :
    Mat k :=
  Matrix.of fun a b =>
    if h : (a : ℕ) < d ∧ i * k + (b : ℕ) < d then M ⟨a, h.1⟩ ⟨i * k + b, h.2⟩
    else 0

/-- The embedded `_compute_multivariate_acovf_from_coefficients`: stack the VAR into
companion form `companion_matrix([1] + [-c for c in coefficients]).T`
(the identity-marker matrix-polynomial branch of `companion_matrix`), embed
the error variance in the top-left block of the stacked noise covariance,
solve the discrete Lyapunov equation, and read off autocovariance blocks;
further lags are produced by repeated multiplication with the companion
matrix, taking the last block column. -/
def computeMultivariateAcovfFromCoefficients {k : ℕ} (coefficients : List (Mat k))
    (errorVariance : Mat k) (order maxlag : ℕ) : Option (List (Mat k)) :=
  let companion := (companionMatrixMatrixPoly k order Poly0.marker
      (coefficients.map fun c => -c))ᵀ
  let selectedVariance : Matrix (Fin (order * k)) (Fin (order * k)) ℝ :=
    Matrix.of fun x y =>
      if h : (x : ℕ) < k ∧ (y : ℕ) < k then errorVariance ⟨x, h.1⟩ ⟨y, h.2⟩
      else 0
  (solveDiscreteLyapunov companion selectedVariance).bind fun stackedCov =>
    some ((List.range (min order (maxlag + 1))).map
        (fun i => stackedBlock k stackedCov i) ++
      (List.range (maxlag - (order - 1))).map
        (fun i => stackedBlock k ((companion ^ (i + 1)) * stackedCov) (order - 1)))

/-- One step `s` of the inverse Levinson recursion of
`_compute_multivariate_pacf_from_coefficients` (lines 978-1061), acting on
the state `(forwards, backwards, partial autocorrelations so far)`:
rebuild the forward/backward variances from the autocovariances, Cholesky
factor them (either can raise), solve for the new forward/backward
coefficient (base case `s = 0` against the factored `Γ_0`, general case
against the accumulated residual `tmp_sum`), apply the Levinson updates to
the earlier coefficients, and recover `P_{s+1}` by the triangular solve
`L_s P = φ_{s,s+1} L*_s`. -/
def pacfFromCoefStep {k : ℕ} (acv : ℕ → Mat k) (s : ℕ)
    (st : List (Mat k) × List (Mat k) × List (Mat k)) :
    Option (List (Mat k) × List (Mat k) × List (Mat k)) :=
  let prevF := st.1
  let prevB := st.2.1
  let fwdVar := acv 0 - ∑ i ∈ Finset.range s, prevF.getD i 0 * acv (i + 1)
  let bwdVar := (acv 0)ᵀ - ∑ i ∈ Finset.range s, prevB.getD i 0 * (acv (i + 1))ᵀ
  (cholO fwdVar).bind fun fFac =>
    (cholO bwdVar).bind fun bFac =>
      let tmpSum := (acv (s + 1))ᵀ -
        ∑ i ∈ Finset.range s, prevF.getD i 0 * (acv (s - i))ᵀ
      let newF := if s = 0 then (choSolve fFac (acv 1))ᵀ
        else (choSolve bFac tmpSumᵀ)ᵀ
      let newB := if s = 0 then (choSolve bFac ((acv 1)ᵀ))ᵀ
        else (choSolve fFac tmpSum)ᵀ
      let forwards' := (List.ofFn fun i : Fin s =>
          prevF.getD i 0 - newF * prevB.getD (s - 1 - i) 0) ++ [newF]
      let backwards' := (List.ofFn fun i : Fin s =>
          prevB.getD i 0 - newB * prevF.getD (s - 1 - i) 0) ++ [newB]
      let P := solveTriangular fFac (newF * bFac)
      some (forwards', backwards', st.2.2 ++ [P])

/-- The inverse recursion run for steps `s = 0, ..., order-1`. -/
def pacfFromCoefLoop {k : ℕ} (acv : ℕ → Mat k) :
    ℕ → List (Mat k) × List (Mat k) × List (Mat k) →
      Option (List (Mat k) × List (Mat k) × List (Mat k))
  | 0, st => some st
  | s + 1, st => (pacfFromCoefLoop acv s st).bind (pacfFromCoefStep acv s)

/-- The embedded `_compute_multivariate_pacf_from_coefficients` with
`order = len(constrained)`: transpose the autocovariances from
`_compute_multivariate_acovf_from_coefficients(..., maxlag=order)` (line
941), run the inverse recursion, return the partial autocorrelations. -/
def computeMultivariatePacfFromCoefficients {k : ℕ} (constrained : List (Mat k))
    (errorVariance : Mat k) (order : ℕ) : Option (List (Mat k)) :=
  (computeMultivariateAcovfFromCoefficients constrained errorVariance order order).bind
    fun acovList =>
      (pacfFromCoefLoop (fun i => (acovList.getD i 0)ᵀ) order ([], [], [])).bind
        fun st => some st.2.2

/-- The embedded `unconstrain_stationary_multivariate` on the list-of-matrices
representation (lines 1097, 1107-1123): Step 1 computes the partial
autocorrelations from the coefficients, Step 2 removes the SV constraint;
the function returns `(unconstrained, error_variance)`.  The
`transform_variance` argument of the Python signature is accepted and — as
in the code — never read. -/
def unconstrainStationaryMultivariateList {k : ℕ} (constrained : List (Mat k))
    (errorVariance : Mat k) (_transformVariance : Bool) :
    Option (List (Mat k) × Mat k) :=
  (computeMultivariatePacfFromCoefficients constrained errorVariance
      constrained.length).bind fun pacs =>
    (unconstrainSvLessThanOne pacs).bind fun unconstrained =>
      some (unconstrained, errorVariance)

/-- The block-splitting of a stacked `(k_endog, k_endog * order)` matrix
performed at lines 1098-1105. -/
def splitStacked (k order : ℕ) (C : Matrix (Fin k) (Fin (k * order)) ℝ) :
    List (Mat k) :=
  (List.range order).map fun i =>
    Matrix.of fun a b =>
      if h : i * k + (b : ℕ) < k * order then C a ⟨i * k + b, h⟩ else 0

/-- The embedded `np.concatenate(..., axis=1)` at line 1121. -/
def concatStacked (k order : ℕ) (l : List (Mat k)) :
    Matrix (Fin k) (Fin (k * order)) ℝ :=
  Matrix.of fun a x =>
    (l.getD ((x : ℕ) / k) 0) a ⟨(x : ℕ) % k, by
      have hx := x.isLt
      rcases Nat.eq_zero_or_pos k with h | h
      · subst h; omega
      · exact Nat.mod_lt _ h⟩

/-- The embedded `unconstrain_stationary_multivariate` on the stacked representation
(lines 1097-1105, 1120-1123). -/
def unconstrainStationaryMultivariateStacked (k order : ℕ)
    (C : Matrix (Fin k) (Fin (k * order)) ℝ) (errorVariance : Mat k)
    (transformVariance : Bool) :
    Option (Matrix (Fin k) (Fin (k * order)) ℝ × Mat k) :=
  (unconstrainStationaryMultivariateList (splitStacked k order C) errorVariance
      transformVariance).bind fun p =>
    some (concatStacked k order p.1, p.2)

/-! ## Constrain orchestrator and the multivariate round trip -/

/-- The embedded `constrain_stationary_multivariate_python` (tools.py lines 744-829) on
the list-of-matrices representation: Step 1 the SV constraint
(line 818), Step 2 the PACF transform (lines 823-824); the block row
returned by Step 2 is read back as a list of `order` matrices. -/
def constrainStationaryMultivariateList {k : ℕ} (unconstrained : List (Mat k))
    (variance : Mat k) (transformVariance : Bool) :
    Option (List (Mat k) × Mat k) :=
  let order := unconstrained.length
  (constrainSvLessThanOne unconstrained).bind fun sv =>
    (computeCoefficientsFromMultivariatePacfPython (fun i => sv.getD i 0) variance
        order transformVariance).bind fun p =>
      some ((List.range order).map fun i => p.1 i, p.2)

/-! ## Properties of the embedded operations, and the claim theorems -/

/-! ### Basic facts about the univariate recursions -/

theorem consRows_diag (r : ℕ → ℝ) (k : ℕ) : consRows r k k = r k := by
  cases k with
  | zero => simp [consRows]
  | succ k => simp [consRows]

theorem consRows_eq_zero_of_gt (r : ℕ → ℝ) (k : ℕ) :
    ∀ i, k < i → consRows r k i = 0 := by
  intro i hi
  cases k with
  | zero =>
      have : i ≠ 0 := by omega
      simp [consRows, this]
  | succ k =>
      have h1 : ¬ i < k + 1 := by omega
      have h2 : ¬ i = k + 1 := by omega
      simp [consRows, h1, h2]

theorem consRows_congr {r s : ℕ → ℝ} (k : ℕ) (h : ∀ j, j ≤ k → r j = s j) :
    consRows r k = consRows s k := by
  induction k with
  | zero => funext i; simp only [consRows]; rw [h 0 le_rfl]
  | succ k ih =>
      funext i
      simp only [consRows]
      rw [ih fun j hj => h j (le_trans hj (Nat.le_succ k)),
        h (k + 1) le_rfl]

theorem squash_sq_lt_one (u : ℝ) : squash u ^ 2 < 1 := by
  have hpos : (0 : ℝ) < 1 + u ^ 2 := by positivity
  have hs : Real.sqrt (1 + u ^ 2) ^ 2 = 1 + u ^ 2 := Real.sq_sqrt hpos.le
  have : squash u ^ 2 = u ^ 2 / (1 + u ^ 2) := by
    rw [squash, div_pow, hs]
  rw [this, div_lt_one hpos]
  linarith

theorem unsquash_squash (u : ℝ) : unsquash (squash u) = u := by
  have hpos : (0 : ℝ) < 1 + u ^ 2 := by positivity
  have hs : Real.sqrt (1 + u ^ 2) ^ 2 = 1 + u ^ 2 := Real.sq_sqrt hpos.le
  have hsp : 0 < Real.sqrt (1 + u ^ 2) := Real.sqrt_pos.mpr hpos
  have h1 : 1 - squash u ^ 2 = 1 / (1 + u ^ 2) := by
    rw [squash, div_pow, hs]
    field_simp
  rw [unsquash, h1, one_div, Real.sqrt_inv, squash, div_inv_eq_mul, div_mul_cancel₀]
  exact hsp.ne'

theorem squash_unsquash {r : ℝ} (h : r ^ 2 < 1) : squash (unsquash r) = r := by
  have hpos : (0 : ℝ) < 1 - r ^ 2 := by linarith
  have hs : Real.sqrt (1 - r ^ 2) ^ 2 = 1 - r ^ 2 := Real.sq_sqrt hpos.le
  have hsp : 0 < Real.sqrt (1 - r ^ 2) := Real.sqrt_pos.mpr hpos
  have h1 : 1 + unsquash r ^ 2 = 1 / (1 - r ^ 2) := by
    rw [unsquash, div_pow, hs]
    field_simp
  rw [squash, h1, one_div, Real.sqrt_inv, unsquash, div_inv_eq_mul, div_mul_cancel₀]
  exact hsp.ne'

/-- The backward step undoes the forward step of the recursion, provided the
reflection coefficient at that row is not `±1`. -/
theorem stepDown_consRows (r : ℕ → ℝ) (k : ℕ) (h : r (k + 1) ^ 2 ≠ 1) :
    stepDown (k + 1) (consRows r (k + 1)) = consRows r k := by
  funext i
  by_cases hi : i < k + 1
  · have hklt : k - i < k + 1 := by omega
    have hki : k - (k - i) = i := by omega
    have hdiag : consRows r (k + 1) (k + 1) = r (k + 1) := consRows_diag r (k + 1)
    have htop : consRows r (k + 1) i
        = consRows r k i + r (k + 1) * consRows r k (k - i) := by
      simp [consRows, hi]
    have hmid : consRows r (k + 1) (k - i)
        = consRows r k (k - i) + r (k + 1) * consRows r k i := by
      simp only [consRows, if_pos hklt]
      rw [hki]
    have hsub : (k + 1) - 1 - i = k - i := by omega
    have hne : 1 - r (k + 1) ^ 2 ≠ 0 := by
      intro hzero
      apply h
      linarith [hzero]
    simp only [stepDown, if_pos hi, hsub, htop, hmid, hdiag]
    field_simp
    ring
  · have h2 : k < i := by omega
    simp [stepDown, hi, consRows_eq_zero_of_gt r k i h2]

/-- Running the backward recursion from row `K` of the forward array
recovers all earlier rows of the forward array. -/
theorem unconsRowsDown_consRows (r : ℕ → ℝ) (hr : ∀ m, r m ^ 2 ≠ 1)
    (K : ℕ) : ∀ j, j ≤ K →
    unconsRowsDown K (consRows r K) j = consRows r (K - j) := by
  intro j
  induction j with
  | zero => intro _; simp [unconsRowsDown]
  | succ j ih =>
      intro hj
      have hjK : j ≤ K := by omega
      have hKj : K - j = (K - (j + 1)) + 1 := by omega
      rw [unconsRowsDown, ih hjK, hKj]
      exact stepDown_consRows r (K - (j + 1)) (hr _)

/-- Entries above the running diagonal of the backward array are zero. -/
theorem unconsRowsDown_eq_zero_of_gt {n : ℕ} (c : ℕ → ℝ) (j : ℕ) :
    ∀ i, n - 1 - j < i →
      unconsRowsDown (n - 1) (fun i => if i < n then -c i else 0) j i = 0 := by
  intro i hi
  cases j with
  | zero =>
      have : ¬ i < n := by omega
      simp [unconsRowsDown, this]
  | succ j =>
      have : ¬ i < (n - 1) - j := by omega
      simp [unconsRowsDown, stepDown, this]

theorem unconsDiag_eq (n : ℕ) (c : ℕ → ℝ) (k : ℕ) :
    unconsDiag n c k = unconsRowAt n c k k := rfl

theorem unconsRowAt_step {n k : ℕ} (c : ℕ → ℝ) (h : k + 1 ≤ n - 1) :
    unconsRowAt n c k = stepDown (k + 1) (unconsRowAt n c (k + 1)) := by
  have h1 : n - 1 - k = (n - 1 - (k + 1)) + 1 := by omega
  have h2 : n - 1 - (n - 1 - (k + 1)) = k + 1 := by omega
  rw [unconsRowAt, h1, unconsRowsDown, h2, ← unconsRowAt]

theorem unconsRowAt_eq_zero_of_gt {n : ℕ} (c : ℕ → ℝ) {k i : ℕ}
    (_hk : k ≤ n - 1) (hi : k < i) : unconsRowAt n c k i = 0 := by
  apply unconsRowsDown_eq_zero_of_gt
  omega

/-- The forward recursion, run on the diagonal values recovered by the
backward recursion, rebuilds the backward array row by row — provided no
recovered reflection coefficient is `±1`. -/
theorem consRows_unconsRowAt {n : ℕ} (c : ℕ → ℝ)
    (hst : ∀ k, k < n → unconsDiag n c k ^ 2 < 1) :
    ∀ k, k ≤ n - 1 →
      consRows (unconsDiag n c) k = unconsRowAt n c k := by
  intro k
  induction k with
  | zero =>
      intro hk
      funext i
      rcases Nat.eq_zero_or_pos i with hi | hi
      · subst hi
        simp [consRows, unconsDiag_eq]
      · rw [consRows_eq_zero_of_gt _ _ _ hi,
          unconsRowAt_eq_zero_of_gt c hk hi]
  | succ k ih =>
      intro hk
      have hkn : k ≤ n - 1 := by omega
      have hlt : k + 1 < n := by omega
      have hd2 : unconsDiag n c (k + 1) ^ 2 < 1 := hst (k + 1) hlt
      have hne : 1 - unconsDiag n c (k + 1) ^ 2 ≠ 0 := by
        intro hzero
        nlinarith [hd2]
      have hstep : unconsRowAt n c k = stepDown (k + 1) (unconsRowAt n c (k + 1)) :=
        unconsRowAt_step c hk
      funext i
      by_cases hi : i < k + 1
      · have hklt : k - i < k + 1 := by omega
        have hki : k - (k - i) = i := by omega
        have hsub : (k + 1) - 1 - (k - i) = i := by omega
        have hsub' : (k + 1) - 1 - i = k - i := by omega
        have hEi : unconsRowAt n c k i
            = (unconsRowAt n c (k + 1) i -
                unconsRowAt n c (k + 1) (k + 1) * unconsRowAt n c (k + 1) (k - i)) /
              (1 - unconsRowAt n c (k + 1) (k + 1) ^ 2) := by
          rw [hstep]; simp [stepDown, hi, hsub']
        have hEki : unconsRowAt n c k (k - i)
            = (unconsRowAt n c (k + 1) (k - i) -
                unconsRowAt n c (k + 1) (k + 1) * unconsRowAt n c (k + 1) i) /
              (1 - unconsRowAt n c (k + 1) (k + 1) ^ 2) := by
          rw [hstep]
          simp only [stepDown, if_pos hklt, hsub]
        have hdiag : unconsRowAt n c (k + 1) (k + 1) = unconsDiag n c (k + 1) :=
          (unconsDiag_eq n c (k + 1)).symm
        simp only [consRows, if_pos hi, ih hkn, hEi, hEki, hdiag]
        field_simp
        ring
      · by_cases hi2 : i = k + 1
        · subst hi2
          simp only [consRows, if_neg hi, if_pos rfl]
          exact unconsDiag_eq n c (k + 1)
        · have hgt : k + 1 < i := by omega
          simp only [consRows, if_neg hi, if_neg hi2]
          exact (unconsRowAt_eq_zero_of_gt c hk hgt).symm

/-- Claim C2, as amended: the univariate transforms are exact mutual
inverses over the reals.  First conjunct: `unconstrain (constrain u) = u`
with no hypothesis (the squashing map keeps every reflection coefficient
strictly inside `(-1, 1)`).  Second conjunct: `constrain (unconstrain c) = c`
for every input whose recovered reflection coefficients (the diagonal of the
backward auxiliary array) lie strictly inside `(-1, 1)`, i.e. for inputs
corresponding to a stable process. -/
theorem C2_univariate_roundtrip :
    (∀ (n : ℕ) (u : ℕ → ℝ) (i : ℕ), i < n →
      unconstrainStationaryUnivariate n (constrainStationaryUnivariate n u) i = u i) ∧
    (∀ (n : ℕ) (c : ℕ → ℝ), (∀ k, k < n → unconsDiag n c k ^ 2 < 1) →
      ∀ i, i < n →
        constrainStationaryUnivariate n (unconstrainStationaryUnivariate n c) i = c i) := by
  constructor
  · intro n u i hin
    set r : ℕ → ℝ := fun j => squash (u j) with hr
    have hrne : ∀ m, r m ^ 2 ≠ 1 := by
      intro m
      exact ne_of_lt (squash_sq_lt_one (u m))
    have htop : (fun j => if j < n then
        -constrainStationaryUnivariate n u j else 0) = consRows r (n - 1) := by
      funext j
      by_cases hj : j < n
      · simp [constrainStationaryUnivariate, hj]
      · rw [if_neg hj, eq_comm]
        apply consRows_eq_zero_of_gt
        omega
    have hk : n - 1 - (n - 1 - i) = i := by omega
    have hdiag : unconsDiag n (constrainStationaryUnivariate n u) i = r i := by
      rw [unconsDiag, htop,
        unconsRowsDown_consRows r hrne (n - 1) (n - 1 - i) (by omega), hk,
        consRows_diag]
    rw [unconstrainStationaryUnivariate, hdiag, hr, unsquash_squash]
  · intro n c hst i hin
    have hsq : ∀ j, j ≤ n - 1 →
        squash (unconstrainStationaryUnivariate n c j) = unconsDiag n c j := by
      intro j hj
      exact squash_unsquash (hst j (by omega))
    have hcong : consRows (fun j => squash (unconstrainStationaryUnivariate n c j)) (n - 1)
        = consRows (unconsDiag n c) (n - 1) := consRows_congr (n - 1) hsq
    have htop : unconsRowAt n c (n - 1) i = -c i := by
      have : n - 1 - (n - 1) = 0 := by omega
      rw [unconsRowAt, this, unconsRowsDown, if_pos hin]
    rw [constrainStationaryUnivariate, hcong,
      consRows_unconsRowAt c hst (n - 1) le_rfl, htop, neg_neg]

/-- Witness for `C2_univariate_roundtrip`: both directions instantiated at
concrete inputs of length 1, with the stability hypothesis discharged at the
input `c = 1/2` (recovered reflection coefficient `-1/2`). -/
theorem C2_univariate_roundtrip_witness :
    ((0 < 1 ∧
      unconstrainStationaryUnivariate 1
        (constrainStationaryUnivariate 1 (fun _ => (1 : ℝ))) 0 = 1)) ∧
    ((∀ k, k < 1 → unconsDiag 1 (fun _ => (1 : ℝ) / 2) k ^ 2 < 1) ∧
      constrainStationaryUnivariate 1
        (unconstrainStationaryUnivariate 1 (fun _ => (1 : ℝ) / 2)) 0 = 1 / 2) := by
  have hst : ∀ k, k < 1 → unconsDiag 1 (fun _ => (1 : ℝ) / 2) k ^ 2 < 1 := by
    intro k hk
    interval_cases k
    rw [unconsDiag]
    norm_num [unconsRowsDown]
  exact ⟨⟨Nat.one_pos, C2_univariate_roundtrip.1 1 (fun _ => 1) 0 Nat.one_pos⟩,
    ⟨hst, C2_univariate_roundtrip.2 1 (fun _ => (1 : ℝ) / 2) hst 0 Nat.one_pos⟩⟩

/-! ### Claim C5 -/

/-- Claim C5 counterexample: `companion_matrix(3)` is not the matrix that is
zero everywhere except ones immediately below the main diagonal; its entry
`(0, 1)` is `1`, not `0`. -/
theorem C5_counterexample :
    companionMatrixInt 3 ≠ !![0, 0, 0; 1, 0, 0; 0, 1, 0] := by
  intro h
  have h01 := congrFun (congrFun h 0) 1
  simp [companionMatrixInt] at h01

/-- Claim C5, as amended: `companion_matrix(3)` is zero everywhere except
ones immediately *above* the main diagonal (entries `(0,1)` and `(1,2)`),
and `companion_matrix([1, -0.5])` is the `1 × 1` matrix `[[0.5]]`. -/
theorem C5_amended :
    companionMatrixInt 3 = !![0, 1, 0; 0, 0, 1; 0, 0, 0] ∧
    companionMatrixScalar [1, -(1 / 2 : ℝ)] = !![(1 / 2 : ℝ)] := by
  constructor
  · ext i j
    fin_cases i <;> fin_cases j <;> rfl
  · ext i j
    fin_cases i
    fin_cases j
    simp [companionMatrixScalar, List.getD]

/-! ### Claim C6 -/

/-- Claim C6 counterexample: at `C_0 = [[1,1],[0,1]]`, `C_1 = [[0,1],[0,0]]`
the `(0,0)` entry of the companion matrix (which the code computes as an
entry of `-(C_0⁻¹ C_1)ᵀ`) differs from the same entry of `-C_0⁻¹ C_1ᵀ`,
the formula asserted by the claim. -/
theorem C6_counterexample :
    companionMatrixMatrixPoly 2 1 (Poly0.mat !![1, 1; 0, 1]) [!![0, 1; 0, 0]]
        ⟨0, by norm_num⟩ ⟨0, by norm_num⟩
      ≠ (-((!![1, 1; 0, 1] : Mat 2)⁻¹ * (!![0, 1; 0, 0] : Mat 2)ᵀ)) 0 0 := by
  have hinv : (!![1, 1; 0, 1] : Mat 2)⁻¹ = !![1, -1; 0, 1] := by
    rw [Matrix.inv_def, Matrix.adjugate_fin_two, Matrix.det_fin_two]
    norm_num [Ring.inverse_eq_inv]
  have hL : companionMatrixMatrixPoly 2 1 (Poly0.mat !![1, 1; 0, 1]) [!![0, 1; 0, 0]]
      ⟨0, by norm_num⟩ ⟨0, by norm_num⟩ = 0 := by
    rw [companionMatrixMatrixPoly]
    simp only [Matrix.of_apply]
    rw [dif_pos (show ((⟨0, by norm_num⟩ : Fin (1 * 2)) : ℕ) < 2 by norm_num)]
    simp [npInv, hinv, subIdx, Matrix.mul_apply, Fin.sum_univ_two, List.getD]
  have ht : (!![0, 1; 0, 0] : Mat 2)ᵀ = !![0, 0; 1, 0] := by
    ext i j
    fin_cases i <;> fin_cases j <;> rfl
  have hR : (-((!![1, 1; 0, 1] : Mat 2)⁻¹ * (!![0, 1; 0, 0] : Mat 2)ᵀ)) 0 0 = 1 := by
    rw [ht, hinv]
    norm_num [Matrix.mul_apply, Fin.sum_univ_two]
  rw [hL, hR]
  norm_num

/-- Claim C6, as amended: for a matrix polynomial with explicit invertible
leading coefficient `C_0`, block `i` of the first block column is
`-(C_0⁻¹ C_{i+1})ᵀ` (the transpose of the product, not the product with the
transpose); and the identity-marker call produces exactly the same matrix as
passing the explicit identity. -/
theorem C6_amended :
    (∀ (m n : ℕ) (C : Mat m) (cs : List (Mat m)), IsUnit C.det →
      ∀ i : ℕ, i < n → ∀ (a b : Fin m)
        (hx : i * m + (a : ℕ) < n * m) (hy : (b : ℕ) < n * m),
        companionMatrixMatrixPoly m n (Poly0.mat C) cs ⟨i * m + a, hx⟩ ⟨b, hy⟩
          = -(((C⁻¹) * cs.getD i 0)ᵀ) a b) ∧
    (∀ (m n : ℕ) (cs : List (Mat m)),
      companionMatrixMatrixPoly m n Poly0.marker cs
        = companionMatrixMatrixPoly m n (Poly0.mat 1) cs) := by
  constructor
  · intro m n C cs _ i _ a b hx hy
    have hb : (b : ℕ) < m := b.isLt
    have ha : (a : ℕ) < m := a.isLt
    have hm : 0 < m := by omega
    have hdiv : (i * m + (a : ℕ)) / m = i := by
      rw [Nat.mul_comm, Nat.mul_add_div hm, Nat.div_eq_of_lt ha, Nat.add_zero]
    have hmod : (i * m + (a : ℕ)) % m = (a : ℕ) := by
      rw [Nat.mul_add_mod', Nat.mod_eq_of_lt ha]
    rw [companionMatrixMatrixPoly]
    simp only [Matrix.of_apply, dif_pos hb]
    have hsub : subIdx (⟨i * m + a, hx⟩ : Fin (n * m)) = a := by
      apply Fin.ext
      simp [subIdx, hmod]
    simp only [hsub, hdiv, npInv]
    congr 1
  · intro m n cs
    ext x y
    rw [companionMatrixMatrixPoly, companionMatrixMatrixPoly]
    by_cases hy : (y : ℕ) < m
    · simp only [Matrix.of_apply, dif_pos hy, npInv, inv_one, Matrix.one_mul]
    · simp only [Matrix.of_apply, dif_neg hy]

/-- Witness for `C6_amended`: the general formula applied at a concrete
invertible `C_0`, and the marker equivalence at a concrete list. -/
theorem C6_amended_witness :
    (IsUnit (Matrix.det (!![2, 0; 0, 1] : Mat 2)) ∧ 0 < 1 ∧
      companionMatrixMatrixPoly 2 1 (Poly0.mat !![2, 0; 0, 1]) [!![5, 6; 7, 8]]
          ⟨0 * 2 + ((0 : Fin 2) : ℕ), by norm_num⟩ ⟨((0 : Fin 2) : ℕ), by norm_num⟩
        = -((((!![2, 0; 0, 1] : Mat 2)⁻¹) * [!![5, 6; 7, 8]].getD 0 0)ᵀ) 0 0) ∧
    companionMatrixMatrixPoly 2 3 Poly0.marker [!![5, 6; 7, 8]]
      = companionMatrixMatrixPoly 2 3 (Poly0.mat 1) [!![5, 6; 7, 8]] := by
  have hdet : IsUnit (Matrix.det (!![2, 0; 0, 1] : Mat 2)) := by
    rw [Matrix.det_fin_two]
    norm_num
  exact ⟨⟨hdet, Nat.one_pos,
      C6_amended.1 2 1 !![2, 0; 0, 1] [!![5, 6; 7, 8]] hdet 0 Nat.one_pos 0 0
        (by norm_num) (by norm_num)⟩,
    C6_amended.2 2 3 [!![5, 6; 7, 8]]⟩

/-! ### Claim C7 -/

/-- Claim C7 counterexample: calling `companion_matrix` on a matrix
polynomial whose leading coefficient is the literal marker `1` mutates the
caller's list — after the call the first element is the identity matrix, so
the argument's contents are not the same as before the call. -/
theorem C7_counterexample :
    (companionMatrixMatrixPolyCall 2 1 (Poly0.marker, [!![1, 2; 3, 4]])).2
      ≠ (Poly0.marker, [!![1, 2; 3, 4]]) := by
  intro h
  have h1 := congrArg Prod.fst h
  simp [companionMatrixMatrixPolyCall] at h1

/-- Claim C7, as amended: `companion_matrix` leaves a matrix-polynomial
argument with an explicit leading coefficient unchanged, but when the
leading coefficient is the literal marker `1` it overwrites that entry of
the caller's list with the identity matrix. -/
theorem C7_amended :
    (∀ (m n : ℕ) (C : Mat m) (cs : List (Mat m)),
      (companionMatrixMatrixPolyCall m n (Poly0.mat C, cs)).2 = (Poly0.mat C, cs)) ∧
    (∀ (m n : ℕ) (cs : List (Mat m)),
      (companionMatrixMatrixPolyCall m n (Poly0.marker, cs)).2 = (Poly0.mat 1, cs)) :=
  ⟨fun _ _ _ _ => rfl, fun _ _ _ => rfl⟩

theorem LowerTri.entry_eq_zero {k : ℕ} {L : Mat k} (hL : LowerTri L)
    {i j : Fin k} (h : i < j) : L i j = 0 :=
  hL (by exact_mod_cast h)

/-- Diagonal entries of a product of two lower-triangular matrices multiply. -/
theorem lowerTri_mul_diag {k : ℕ} {A B : Mat k} (hA : LowerTri A)
    (hB : LowerTri B) (i : Fin k) : (A * B) i i = A i i * B i i := by
  rw [Matrix.mul_apply]
  apply Finset.sum_eq_single i
  · intro j _ hj
    rcases lt_or_gt_of_ne hj with h | h
    · rw [hB.entry_eq_zero h, mul_zero]
    · rw [hA.entry_eq_zero h, zero_mul]
  · intro h
    exact absurd (Finset.mem_univ i) h

theorem lowerTri_det_pos {k : ℕ} {L : Mat k} (hL : LowerTri L)
    (hd : ∀ i, 0 < L i i) : 0 < L.det := by
  rw [Matrix.det_of_lowerTriangular L hL]
  exact Finset.prod_pos fun i _ => hd i

theorem dotProduct_self_pos {m : Type*} [Fintype m] {v : m → ℝ} (hv : v ≠ 0) :
    0 < v ⬝ᵥ v := by
  rcases lt_or_eq_of_le (Finset.sum_nonneg
      (fun i _ => mul_self_nonneg (v i)) : 0 ≤ v ⬝ᵥ v) with h | h
  · exact h
  · exact absurd (Matrix.dotProduct_self_eq_zero.mp h.symm) hv

/-- The product `C Cᵀ` is positive definite for invertible `C`. -/
theorem posDef_mul_self_transpose {m : Type*} [Fintype m] [DecidableEq m]
    {C : Matrix m m ℝ} (hC : IsUnit C.det) : (C * Cᵀ).PosDef := by
  constructor
  · have h := Matrix.isHermitian_mul_conjTranspose_self C
    rwa [Matrix.conjTranspose_eq_transpose_of_trivial] at h
  · intro x hx
    have hy : Cᵀ *ᵥ x ≠ 0 := by
      intro h0
      have hinj : Function.Injective (Cᵀ).mulVec :=
        Matrix.mulVec_injective_iff_isUnit.mpr
          ((Matrix.isUnit_iff_isUnit_det _).mpr (by rwa [Matrix.det_transpose]))
      exact hx (hinj (by rw [h0, Matrix.mulVec_zero]))
    have hrw : star x ⬝ᵥ ((C * Cᵀ) *ᵥ x) = (Cᵀ *ᵥ x) ⬝ᵥ (Cᵀ *ᵥ x) := by
      rw [star_trivial, ← Matrix.mulVec_mulVec, Matrix.dotProduct_mulVec,
        ← Matrix.mulVec_transpose]
    rw [hrw]
    exact dotProduct_self_pos hy

/-- Conjugating a positive definite matrix by an invertible matrix preserves
positive definiteness. -/
theorem posDef_conj {m : Type*} [Fintype m] [DecidableEq m]
    {S : Matrix m m ℝ} (hS : S.PosDef) (B : Matrix m m ℝ)
    (hB : IsUnit B.det) : (B * S * Bᵀ).PosDef := by
  constructor
  · have h := Matrix.isHermitian_mul_mul_conjTranspose B hS.1
    rwa [Matrix.conjTranspose_eq_transpose_of_trivial] at h
  · intro x hx
    have hy : Bᵀ *ᵥ x ≠ 0 := by
      intro h0
      have hinj : Function.Injective (Bᵀ).mulVec :=
        Matrix.mulVec_injective_iff_isUnit.mpr
          ((Matrix.isUnit_iff_isUnit_det _).mpr (by rwa [Matrix.det_transpose]))
      exact hx (hinj (by rw [h0, Matrix.mulVec_zero]))
    have hrw : star x ⬝ᵥ ((B * S * Bᵀ) *ᵥ x)
        = star (Bᵀ *ᵥ x) ⬝ᵥ (S *ᵥ (Bᵀ *ᵥ x)) := by
      rw [star_trivial, star_trivial, ← Matrix.mulVec_mulVec, ← Matrix.mulVec_mulVec,
        Matrix.dotProduct_mulVec, ← Matrix.mulVec_transpose]
    rw [hrw]
    exact hS.2 _ hy

/-- Diagonal entries of a positive definite matrix are positive. -/
theorem posDef_diag_entry {m : Type*} [Fintype m] [DecidableEq m]
    {M : Matrix m m ℝ} (hM : M.PosDef) (i : m) : 0 < M i i := by
  have hx : (Pi.single i 1 : m → ℝ) ≠ 0 := by
    intro h
    have := congrFun h i
    simp at this
  have h := hM.2 (Pi.single i 1) hx
  rw [star_trivial] at h
  simpa [Matrix.dotProduct, Matrix.mulVec, Pi.single_apply, Finset.sum_ite_eq,
    Finset.sum_ite_eq'] using h

/-- Existence of a lower-triangular square root with positive diagonal for a
positive definite matrix, proved from the LDL decomposition in the same
instance context that the LDL development uses. -/
theorem exists_cholesky_aux {m : Type*} [Fintype m] [LinearOrder m]
    [WellFoundedLT m] [LocallyFiniteOrderBot m]
    {S : Matrix m m ℝ} (hS : S.PosDef) :
    ∃ L : Matrix m m ℝ, L.BlockTriangular OrderDual.toDual ∧
      (∀ i, 0 < L i i) ∧ L * Lᵀ = S := by
  haveI := LDL.invertibleLowerInv hS
  set d : m → ℝ := fun i => LDL.diag hS i i with hd
  have hdiagPD : (LDL.diag hS).PosDef := by
    rw [LDL.diag_eq_lowerInv_conj, Matrix.conjTranspose_eq_transpose_of_trivial]
    exact posDef_conj hS _ (Matrix.isUnit_det_of_invertible _)
  have hdpos : ∀ i, 0 < d i := fun i => posDef_diag_entry hdiagPD i
  have hdiagonal : Matrix.diagonal d = LDL.diag hS := by
    ext i j
    by_cases hij : i = j
    · subst hij
      rw [Matrix.diagonal_apply_eq]
    · rw [Matrix.diagonal_apply_ne _ hij, LDL.diag, Matrix.diagonal_apply_ne _ hij]
  have hlowtri : (LDL.lowerInv hS).BlockTriangular OrderDual.toDual := by
    intro i j hij
    exact LDL.lowerInv_triangular hS (by exact_mod_cast hij)
  have hlower : (LDL.lower hS).BlockTriangular OrderDual.toDual := by
    rw [LDL.lower]
    exact Matrix.blockTriangular_inv_of_blockTriangular hlowtri
  set L0 : Matrix m m ℝ :=
    LDL.lower hS * Matrix.diagonal (fun i => Real.sqrt (d i)) with hL0
  have hL0tri : L0.BlockTriangular OrderDual.toDual :=
    hlower.mul (Matrix.blockTriangular_diagonal _)
  have hL0prod : L0 * L0ᵀ = S := by
    rw [hL0, Matrix.transpose_mul, Matrix.diagonal_transpose, Matrix.mul_assoc,
      ← Matrix.mul_assoc (Matrix.diagonal _), Matrix.diagonal_mul_diagonal]
    have hdd : (fun i => Real.sqrt (d i) * Real.sqrt (d i)) = d := by
      funext i
      exact Real.mul_self_sqrt (hdpos i).le
    rw [hdd, ← Matrix.mul_assoc, hdiagonal,
      ← Matrix.conjTranspose_eq_transpose_of_trivial (LDL.lower hS)]
    exact LDL.lower_conj_diag hS
  have hdet0 : L0.det ≠ 0 := by
    have hdetS : L0.det * L0.det = S.det := by
      have := congrArg Matrix.det hL0prod
      rwa [Matrix.det_mul, Matrix.det_transpose] at this
    intro h
    rw [h, mul_zero] at hdetS
    exact (hS.det_pos).ne hdetS
  have hdiagne : ∀ i, L0 i i ≠ 0 := by
    intro i
    have hprod : ∏ j, L0 j j ≠ 0 := by
      rwa [← Matrix.det_of_lowerTriangular L0 hL0tri]
    exact Finset.prod_ne_zero_iff.mp hprod i (Finset.mem_univ i)
  set e : m → ℝ := fun i => if 0 < L0 i i then 1 else -1 with he
  have hee : ∀ i, e i * e i = 1 := by
    intro i
    by_cases h : 0 < L0 i i <;> simp [he, h]
  refine ⟨L0 * Matrix.diagonal e, hL0tri.mul (Matrix.blockTriangular_diagonal _),
    ?_, ?_⟩
  · intro i
    rw [Matrix.mul_diagonal]
    by_cases h : 0 < L0 i i
    · simp [he, h]
    · have hlt : L0 i i < 0 := lt_of_le_of_ne (not_lt.mp h) (hdiagne i)
      simp only [he, if_neg h]
      nlinarith
  · rw [Matrix.transpose_mul, Matrix.diagonal_transpose, Matrix.mul_assoc,
      ← Matrix.mul_assoc (Matrix.diagonal e), Matrix.diagonal_mul_diagonal]
    have : (fun i => e i * e i) = fun _ => 1 := funext hee
    rw [this, Matrix.diagonal_one, Matrix.one_mul, hL0prod]

/-- Existence of the Cholesky factor of a positive definite matrix. -/
theorem exists_isCholesky {k : ℕ} {S : Mat k} (hS : S.PosDef) :
    ∃ L, IsCholesky S L := by
  cases k with
  | zero =>
      refine ⟨0, fun i => i.elim0, fun i => i.elim0, ?_⟩
      ext i j
      exact i.elim0
  | succ n =>
      obtain ⟨L, h1, h2, h3⟩ :=
        @exists_cholesky_aux (Fin (n + 1)) inferInstance inferInstance
          (inferInstance : WellFoundedLT (Fin (n + 1))) inferInstance S hS
      exact ⟨L, h1, h2, h3⟩

/-- Uniqueness of the Cholesky factor. -/
theorem isCholesky_unique {k : ℕ} {S L₁ L₂ : Mat k}
    (h1 : IsCholesky S L₁) (h2 : IsCholesky S L₂) : L₁ = L₂ := by
  obtain ⟨ht1, hd1, hp1⟩ := h1
  obtain ⟨ht2, hd2, hp2⟩ := h2
  have hu1 : IsUnit L₁.det := (lowerTri_det_pos ht1 hd1).ne'.isUnit
  have hu2 : IsUnit L₂.det := (lowerTri_det_pos ht2 hd2).ne'.isUnit
  have hu2t : IsUnit (L₂ᵀ).det := by rwa [Matrix.det_transpose]
  haveI : Invertible L₂ := L₂.invertibleOfIsUnitDet hu2
  set Q : Mat k := L₂⁻¹ * L₁ with hQ
  have hQtri : LowerTri Q :=
    (Matrix.blockTriangular_inv_of_blockTriangular ht2).mul ht1
  have hQQt : Q * Qᵀ = 1 := by
    rw [hQ, Matrix.transpose_mul, Matrix.transpose_nonsing_inv]
    calc L₂⁻¹ * L₁ * (L₁ᵀ * (L₂ᵀ)⁻¹)
        = L₂⁻¹ * ((L₁ * L₁ᵀ) * (L₂ᵀ)⁻¹) := by simp only [Matrix.mul_assoc]
      _ = L₂⁻¹ * ((L₂ * L₂ᵀ) * (L₂ᵀ)⁻¹) := by rw [hp1, hp2]
      _ = L₂⁻¹ * (L₂ * (L₂ᵀ * (L₂ᵀ)⁻¹)) := by simp only [Matrix.mul_assoc]
      _ = 1 := by
          rw [Matrix.mul_nonsing_inv _ hu2t, Matrix.mul_one, Matrix.nonsing_inv_mul _ hu2]
  have hQu : IsUnit Q.det := by
    have := congrArg Matrix.det hQQt
    rw [Matrix.det_mul, Matrix.det_transpose, Matrix.det_one] at this
    exact isUnit_of_mul_eq_one _ _ this
  haveI : Invertible Q := Q.invertibleOfIsUnitDet hQu
  have hQinv : Q⁻¹ = Qᵀ := Matrix.inv_eq_right_inv hQQt
  have hQtriInv : LowerTri Q⁻¹ :=
    Matrix.blockTriangular_inv_of_blockTriangular hQtri
  have hQoff : ∀ i j : Fin k, i ≠ j → Q i j = 0 := by
    intro i j hij
    rcases lt_or_gt_of_ne hij with h | h
    · exact hQtri.entry_eq_zero h
    · have : Q⁻¹ j i = 0 := hQtriInv.entry_eq_zero h
      rw [hQinv] at this
      rwa [Matrix.transpose_apply] at this
  have hinvdiag : ∀ i, L₂⁻¹ i i * L₂ i i = 1 := by
    intro i
    have h := lowerTri_mul_diag (Matrix.blockTriangular_inv_of_blockTriangular ht2) ht2 i
    rw [Matrix.nonsing_inv_mul _ hu2] at h
    rw [← h, Matrix.one_apply_eq]
  have hQdiagpos : ∀ i, 0 < Q i i := by
    intro i
    rw [hQ, lowerTri_mul_diag (Matrix.blockTriangular_inv_of_blockTriangular ht2) ht1]
    have h2i := hd2 i
    have hpos : 0 < L₂⁻¹ i i := by
      have := hinvdiag i
      rcases lt_trichotomy (L₂⁻¹ i i) 0 with h | h | h
      · nlinarith
      · rw [h, zero_mul] at this
        norm_num at this
      · exact h
    exact mul_pos hpos (hd1 i)
  have hQdiag1 : ∀ i, Q i i = 1 := by
    intro i
    have hsq : Q i i * Q i i = 1 := by
      have h := congrFun (congrFun hQQt i) i
      rw [Matrix.mul_apply] at h
      have hsum : ∑ j, Q i j * Qᵀ j i = Q i i * Q i i := by
        calc ∑ j, Q i j * Qᵀ j i
            = Q i i * Qᵀ i i :=
              Finset.sum_eq_single i
                (fun j _ hj => by rw [hQoff i j (Ne.symm hj), zero_mul])
                (fun hmem => absurd (Finset.mem_univ i) hmem)
          _ = Q i i * Q i i := by rw [Matrix.transpose_apply]
      rw [hsum] at h
      rw [h, Matrix.one_apply_eq]
    nlinarith [hQdiagpos i]
  have hQone : Q = 1 := by
    ext i j
    by_cases h : i = j
    · subst h
      rw [hQdiag1, Matrix.one_apply_eq]
    · rw [hQoff i j h, Matrix.one_apply_ne h]
  calc L₁ = L₂ * (L₂⁻¹ * L₁) := by
        rw [← Matrix.mul_assoc, Matrix.mul_nonsing_inv _ hu2, Matrix.one_mul]
    _ = L₂ * Q := by rw [hQ]
    _ = L₂ := by rw [hQone, Matrix.mul_one]

theorem IsCholesky.posDefOf {k : ℕ} {S L : Mat k} (hL : IsCholesky S L) :
    S.PosDef := by
  obtain ⟨ht, hd, hp⟩ := hL
  rw [← hp]
  exact posDef_mul_self_transpose (lowerTri_det_pos ht hd).ne'.isUnit

theorem cholO_eq_none {k : ℕ} {S : Mat k} (h : ¬S.PosDef) : cholO S = none := by
  rw [cholO, dif_neg]
  rintro ⟨L, hL⟩
  exact h hL.posDefOf

theorem cholO_eq_some {k : ℕ} {S L : Mat k} (hL : IsCholesky S L) :
    cholO S = some L := by
  have hex : ∃ M, IsCholesky S M := ⟨L, hL⟩
  rw [cholO, dif_pos hex]
  exact congrArg some (isCholesky_unique hex.choose_spec hL)

theorem cholO_isSome_spec {k : ℕ} {S : Mat k} {L : Mat k}
    (h : cholO S = some L) : IsCholesky S L := by
  rw [cholO] at h
  by_cases hex : ∃ M, IsCholesky S M
  · rw [dif_pos hex] at h
    rw [← Option.some.inj h]
    exact hex.choose_spec
  · rw [dif_neg hex] at h
    cases h

/-! ### Evaluation helpers for `1 × 1` matrices -/

theorem fin_one_posDef {c : ℝ} (hc : 0 < c) : (!![c] : Mat 1).PosDef := by
  constructor
  · ext i j
    fin_cases i
    fin_cases j
    simp [Matrix.conjTranspose_apply]
  · intro x hx
    have hx0 : x 0 ≠ 0 := by
      intro h0
      apply hx
      funext i
      fin_cases i
      exact h0
    have hval : star x ⬝ᵥ ((!![c] : Mat 1) *ᵥ x) = c * (x 0 * x 0) := by
      rw [star_trivial]
      simp [Matrix.dotProduct, Matrix.mulVec, Fin.sum_univ_one]
      ring
    rw [hval]
    have := mul_self_pos.mpr hx0
    positivity

theorem fin_one_not_posDef {c : ℝ} (hc : c ≤ 0) : ¬ (!![c] : Mat 1).PosDef := by
  intro h
  have := posDef_diag_entry h 0
  simp at this
  linarith

theorem fin_one_mul (a b : ℝ) : (!![a] : Mat 1) * !![b] = !![a * b] := by
  ext i j
  fin_cases i
  fin_cases j
  simp [Matrix.mul_apply, Fin.sum_univ_one]

theorem fin_one_transpose (a : ℝ) : (!![a] : Mat 1)ᵀ = !![a] := by
  ext i j
  fin_cases i
  fin_cases j
  rfl

theorem fin_one_isCholesky {c : ℝ} (hc : 0 < c) :
    IsCholesky (!![c] : Mat 1) !![Real.sqrt c] := by
  refine ⟨?_, ?_, ?_⟩
  · intro i j hij
    fin_cases i
    fin_cases j
    exact absurd hij (lt_irrefl _)
  · intro i
    fin_cases i
    simpa using Real.sqrt_pos.mpr hc
  · rw [fin_one_transpose, fin_one_mul, Real.mul_self_sqrt hc.le]

theorem cholO_fin_one {c : ℝ} (hc : 0 < c) :
    cholO (!![c] : Mat 1) = some !![Real.sqrt c] :=
  cholO_eq_some (fin_one_isCholesky hc)

theorem fin_one_inv (a : ℝ) : (!![a] : Mat 1)⁻¹ = !![a⁻¹] := by
  rw [Matrix.inv_def, Matrix.adjugate_fin_one, Matrix.det_fin_one, Ring.inverse_eq_inv]
  ext i j
  fin_cases i
  fin_cases j
  simp

theorem fin_one_inj {a b : ℝ} (h : (!![a] : Mat 1) = !![b]) : a = b := by
  have := congrFun (congrFun h 0) 0
  simpa using this

theorem posDef_one_add_mul_self {k : ℕ} (A : Mat k) : (1 + A * Aᵀ).PosDef := by
  have h2 : (A * Aᵀ).PosSemidef := by
    have h := Matrix.posSemidef_self_mul_conjTranspose A
    rwa [Matrix.conjTranspose_eq_transpose_of_trivial] at h
  exact Matrix.PosDef.add_posSemidef Matrix.PosDef.one h2

/-- The heart of claim C3: if `B Bᵀ = I + A Aᵀ` with `B` a Cholesky factor,
then `I - P Pᵀ` is positive definite for `P = B⁻¹ A`, i.e. all singular
values of `P` are strictly below one. -/
theorem sv_step_posDef {k : ℕ} {A B : Mat k} (hB : IsCholesky (1 + A * Aᵀ) B) :
    (1 - solveTriangular B A * (solveTriangular B A)ᵀ).PosDef := by
  obtain ⟨htri, hdiag, hprod⟩ := hB
  have hu : IsUnit B.det := (lowerTri_det_pos htri hdiag).ne'.isUnit
  have hut : IsUnit (Bᵀ).det := by rwa [Matrix.det_transpose]
  have huinv : IsUnit (B⁻¹).det := by
    rw [Matrix.det_nonsing_inv]
    exact hu.ring_inverse
  have h2 : B⁻¹ * (B * Bᵀ) * (B⁻¹)ᵀ = 1 := by
    rw [Matrix.transpose_nonsing_inv]
    calc B⁻¹ * (B * Bᵀ) * (Bᵀ)⁻¹
        = B⁻¹ * (B * (Bᵀ * (Bᵀ)⁻¹)) := by simp only [Matrix.mul_assoc]
      _ = 1 := by
          rw [Matrix.mul_nonsing_inv _ hut, Matrix.mul_one, Matrix.nonsing_inv_mul _ hu]
  have h3 : B⁻¹ * (A * Aᵀ) * (B⁻¹)ᵀ
      = solveTriangular B A * (solveTriangular B A)ᵀ := by
    rw [solveTriangular, Matrix.transpose_mul]
    simp only [Matrix.mul_assoc]
  have hkey : 1 - solveTriangular B A * (solveTriangular B A)ᵀ = B⁻¹ * (B⁻¹)ᵀ := by
    have hsum : B⁻¹ * (1 + A * Aᵀ) * (B⁻¹)ᵀ
        = B⁻¹ * (B⁻¹)ᵀ + solveTriangular B A * (solveTriangular B A)ᵀ := by
      rw [Matrix.mul_add, Matrix.add_mul, Matrix.mul_one, h3]
    rw [← hprod, h2] at hsum
    rw [hsum, add_sub_cancel_right]
  rw [hkey]
  exact posDef_mul_self_transpose huinv

/-- Claim C3: `_constrain_sv_less_than_one_python` succeeds on every input
list of square matrices, and every output matrix `P` has all singular values
strictly less than one — equivalently, `I - P Pᵀ` is positive definite. -/
theorem C3_sv_bound {k : ℕ} (l : List (Mat k)) :
    ∃ out, constrainSvLessThanOne l = some out ∧
      ∀ P ∈ out, (1 - P * Pᵀ).PosDef := by
  induction l with
  | nil => exact ⟨[], rfl, by simp⟩
  | cons A rest ih =>
      obtain ⟨out, hout, hposd⟩ := ih
      have hPD : (1 + A * Aᵀ).PosDef := posDef_one_add_mul_self A
      obtain ⟨B, hB⟩ := exists_isCholesky hPD
      have hchol : cholO (1 + A * Aᵀ) = some B := cholO_eq_some hB
      refine ⟨solveTriangular B A :: out, ?_, ?_⟩
      · rw [constrainSvLessThanOne, hchol, Option.some_bind, hout, Option.some_bind]
      · intro P hP
        rcases List.mem_cons.mp hP with h | h
        · subst h
          exact sv_step_posDef hB
        · exact hposd P h

/-- Claim C9: `_unconstrain_sv_less_than_one` raises `LinAlgError`
(`NumericalDegeneracy`) whenever some input matrix `P` has a singular value
`≥ 1` — witnessed by a direction `v ≠ 0` with `vᵀ (P Pᵀ) v ≥ vᵀ v`, which is
exactly failure of positive definiteness of `I - P Pᵀ`; and on input lists
whose matrices all have singular values strictly below one it returns the
list of `A = B P` where `B⁻¹` is the lower Cholesky factor of `I - P Pᵀ`
(equivalently `B⁻¹ A = P`). -/
theorem C9_sv_unconstrain :
    (∀ (k : ℕ) (l : List (Mat k)),
      (∃ P ∈ l, ∃ v : Fin k → ℝ, v ≠ 0 ∧ v ⬝ᵥ v ≤ v ⬝ᵥ ((P * Pᵀ) *ᵥ v)) →
        unconstrainSvLessThanOne l = none) ∧
    (∀ (k : ℕ) (l : List (Mat k)), (∀ P ∈ l, (1 - P * Pᵀ).PosDef) →
      ∃ out, unconstrainSvLessThanOne l = some out ∧
        out.length = l.length ∧
        ∀ (i : ℕ) (hi : i < l.length), ∃ Binv : Mat k,
          IsCholesky (1 - l.get ⟨i, hi⟩ * (l.get ⟨i, hi⟩)ᵀ) Binv ∧
          Binv * out.getD i 0 = l.get ⟨i, hi⟩) := by
  constructor
  · intro k l
    induction l with
    | nil => rintro ⟨P, hP, -⟩; exact absurd hP (List.not_mem_nil P)
    | cons Q rest ih =>
        rintro ⟨P, hP, v, hv, hle⟩
        rcases List.mem_cons.mp hP with h | h
        · subst h
          have hnPD : ¬ (1 - P * Pᵀ).PosDef := by
            intro hPD
            have hpos := hPD.2 v hv
            rw [star_trivial, Matrix.sub_mulVec, Matrix.one_mulVec,
              Matrix.dotProduct_sub] at hpos
            linarith
          rw [unconstrainSvLessThanOne, cholO_eq_none hnPD, Option.none_bind]
        · rw [unconstrainSvLessThanOne]
          rcases hc : cholO (1 - Q * Qᵀ) with - | B
          · rw [Option.none_bind]
          · rw [Option.some_bind, ih ⟨P, h, v, hv, hle⟩, Option.none_bind]
  · intro k l
    induction l with
    | nil =>
        intro _
        exact ⟨[], rfl, rfl, fun i hi => absurd hi (by simp)⟩
    | cons Q rest ih =>
        intro hall
        have hQPD : (1 - Q * Qᵀ).PosDef := hall Q (List.mem_cons_self Q rest)
        obtain ⟨out, hout, hlen, hidx⟩ :=
          ih fun P hP => hall P (List.mem_cons_of_mem Q hP)
        obtain ⟨B, hB⟩ := exists_isCholesky hQPD
        have hchol : cholO (1 - Q * Qᵀ) = some B := cholO_eq_some hB
        refine ⟨solveTriangular B Q :: out, ?_, by simpa using hlen, ?_⟩
        · rw [unconstrainSvLessThanOne, hchol, Option.some_bind, hout, Option.some_bind]
        · intro i hi
          cases i with
          | zero =>
              refine ⟨B, hB, ?_⟩
              obtain ⟨htri, hdiag, -⟩ := hB
              have hu : IsUnit B.det :=
                (lowerTri_det_pos htri hdiag).ne'.isUnit
              have hgetD : (solveTriangular B Q :: out).getD 0 0
                  = solveTriangular B Q := by
                simp [List.getD]
              rw [hgetD, solveTriangular, ← Matrix.mul_assoc,
                Matrix.mul_nonsing_inv _ hu, Matrix.one_mul]
              rfl
          | succ i =>
              have hi' : i < rest.length := by simpa using hi
              obtain ⟨Binv, hB1, hB2⟩ := hidx i hi'
              exact ⟨Binv, hB1, hB2⟩

/-- Witness for `C9_sv_unconstrain`: the degenerate branch at the `1 × 1`
input `[[2]]` (singular value `2 ≥ 1`), and the regular branch at the input
`[[0]]`. -/
theorem C9_sv_unconstrain_witness :
    (unconstrainSvLessThanOne [(!![2] : Mat 1)] = none) ∧
    ((∀ P ∈ [(0 : Mat 1)], (1 - P * Pᵀ).PosDef) ∧
      ∃ out, unconstrainSvLessThanOne [(0 : Mat 1)] = some out ∧
        out.length = [(0 : Mat 1)].length ∧
        ∀ (i : ℕ) (hi : i < [(0 : Mat 1)].length), ∃ Binv : Mat 1,
          IsCholesky (1 - [(0 : Mat 1)].get ⟨i, hi⟩ * ([(0 : Mat 1)].get ⟨i, hi⟩)ᵀ) Binv ∧
          Binv * out.getD i 0 = [(0 : Mat 1)].get ⟨i, hi⟩) := by
  have hPD : ∀ P ∈ [(0 : Mat 1)], (1 - P * Pᵀ).PosDef := by
    intro P hP
    rcases List.mem_singleton.mp hP with rfl
    simpa using Matrix.PosDef.one
  constructor
  · apply C9_sv_unconstrain.1 1 [(!![2] : Mat 1)]
    refine ⟨!![2], List.mem_singleton.mpr rfl, fun _ => 1, ?_, ?_⟩
    · intro h
      have := congrFun h 0
      norm_num at this
    · rw [fin_one_transpose, fin_one_mul]
      simp [Matrix.dotProduct, Matrix.mulVec, Fin.sum_univ_one]
      norm_num
  · exact ⟨hPD, C9_sv_unconstrain.2 1 [(0 : Mat 1)] hPD⟩

/-- Claim C4: with `transform_variance = True` the provided error variance
feeds the recursion directly and the recursion's output pair is returned
unmodified; with `transform_variance = False` the recursion is instead run
on the surrogate variance `I * (order + k_endog)^10`, and afterwards every
output coefficient is conjugated by `T = L_init * L_out⁻¹`, the Cholesky
factors of the saved input variance and of the recursion's output
variance, while the returned variance is the recursion's output variance. -/
theorem C4_transform_variance_branch :
    (∀ (k : ℕ) (pacs : ℕ → Mat k) (errorVariance : Mat k) (order : ℕ),
      computeCoefficientsFromMultivariatePacfPython pacs errorVariance order true
        = computeCoefficientsCore pacs errorVariance order) ∧
    (∀ (k : ℕ) (pacs : ℕ → Mat k) (errorVariance : Mat k) (order : ℕ),
      computeCoefficientsFromMultivariatePacfPython pacs errorVariance order false
        = (computeCoefficientsCore pacs
              ((((order + k) ^ 10 : ℕ) : ℝ) • (1 : Mat k)) order).bind fun p =>
            (cholO errorVariance).bind fun Li =>
              (cholO p.2).bind fun Lo =>
                some (fun j => if j < order then
                    (Li * npInv Lo) * p.1 j * npInv (Li * npInv Lo) else p.1 j,
                  p.2)) := by
  constructor
  · intro k pacs errorVariance order
    have hx : ∀ x : Option ((ℕ → Mat k) × Mat k), x.bind some = x := fun x => by
      cases x <;> rfl
    exact hx (computeCoefficientsCore pacs errorVariance order)
  · intro k pacs errorVariance order
    rfl

/-! ### Claim C8 -/

/-- Claim C8 counterexample: at the exactly-unit-root input `[1]` the
recovered reflection coefficient is `-1`, so the quantity `1 - r²` by which
the code divides is exactly zero — yet the call still returns a value
(non-finite under IEEE arithmetic) because
`unconstrain_stationary_univariate` contains no check and no raise; it does
not fail with `NumericalDegeneracy`. -/
theorem C8_counterexample :
    1 - unconsDiag 1 (fun _ => (1 : ℝ)) 0 ^ 2 = 0 ∧
    (unconstrainStationaryUnivariateCall 1 (fun _ => (1 : ℝ))).isSome = true := by
  constructor
  · rw [unconsDiag]
    norm_num [unconsRowsDown]
  · rfl

/-- Claim C8, as amended: `unconstrain_stationary_univariate` performs no
degeneracy check at all — the call returns a value for every input, also
for exactly unit-root inputs, where the divisions are by zero and the IEEE
result is non-finite rather than an exception. -/
theorem C8_amended (n : ℕ) (c : ℕ → ℝ) :
    unconstrainStationaryUnivariateCall n c
      = some (unconstrainStationaryUnivariate n c) := rfl

/-- Structural fact shared by several results below: whatever
`unconstrain_stationary_multivariate` does internally, it either raises or
returns its `error_variance` argument unchanged as the second component. -/
theorem unconstrainList_snd {k : ℕ} (c : List (Mat k)) (v : Mat k) (b : Bool) :
    unconstrainStationaryMultivariateList c v b = none ∨
      ∃ u, unconstrainStationaryMultivariateList c v b = some (u, v) := by
  cases h1 : computeMultivariatePacfFromCoefficients c v c.length with
  | none =>
      left
      rw [unconstrainStationaryMultivariateList, h1, Option.none_bind]
  | some pacs =>
      cases h2 : unconstrainSvLessThanOne pacs with
      | none =>
          left
          rw [unconstrainStationaryMultivariateList, h1, Option.some_bind, h2,
            Option.none_bind]
      | some u =>
          right
          exact ⟨u, by rw [unconstrainStationaryMultivariateList, h1,
            Option.some_bind, h2, Option.some_bind]⟩

/-- Claim C10: `unconstrain_stationary_multivariate` always returns the
`error_variance` argument unchanged as the second component of its result
(whenever it returns at all), in both the list and the stacked
representation, and its `transform_variance` argument is never read — the
result is identical for any two values of it. -/
theorem C10_variance_passthrough :
    (∀ (k : ℕ) (c : List (Mat k)) (v : Mat k) (b : Bool),
      unconstrainStationaryMultivariateList c v b = none ∨
        ∃ u, unconstrainStationaryMultivariateList c v b = some (u, v)) ∧
    (∀ (k order : ℕ) (C : Matrix (Fin k) (Fin (k * order)) ℝ) (v : Mat k) (b : Bool),
      unconstrainStationaryMultivariateStacked k order C v b = none ∨
        ∃ u, unconstrainStationaryMultivariateStacked k order C v b = some (u, v)) ∧
    (∀ (k : ℕ) (c : List (Mat k)) (v : Mat k) (b₁ b₂ : Bool),
      unconstrainStationaryMultivariateList c v b₁
        = unconstrainStationaryMultivariateList c v b₂) ∧
    (∀ (k order : ℕ) (C : Matrix (Fin k) (Fin (k * order)) ℝ) (v : Mat k) (b₁ b₂ : Bool),
      unconstrainStationaryMultivariateStacked k order C v b₁
        = unconstrainStationaryMultivariateStacked k order C v b₂) := by
  refine ⟨fun k c v b => unconstrainList_snd c v b, ?_,
    fun _ _ _ _ _ => rfl, fun _ _ _ _ _ _ => rfl⟩
  intro k order C v b
  rcases unconstrainList_snd (splitStacked k order C) v b with h | ⟨u, hu⟩
  · left
    rw [unconstrainStationaryMultivariateStacked, h, Option.none_bind]
  · right
    exact ⟨concatStacked k order u, by
      rw [unconstrainStationaryMultivariateStacked, hu, Option.some_bind]⟩

/-! ### Evaluation of the pipeline at the concrete input
`A = [[3/4]]`, `Σ = [[1]]`, `transform_variance = True` (`k_endog = 1`,
`order = 1`): all Cholesky factors are rational, so the run can be traced
exactly. -/

theorem fin_one_one : (1 : Mat 1) = !![1] := by
  ext i j
  fin_cases i
  fin_cases j
  simp

theorem fin_one_add (a b : ℝ) : (!![a] : Mat 1) + !![b] = !![a + b] := by
  ext i j
  fin_cases i
  fin_cases j
  simp

theorem fin_one_sub (a b : ℝ) : (!![a] : Mat 1) - !![b] = !![a - b] := by
  ext i j
  fin_cases i
  fin_cases j
  simp

theorem cholO_one_one : cholO ((!![1] : Mat 1)) = some !![1] := by
  rw [cholO_fin_one one_pos, Real.sqrt_one]

theorem cholO_sixteen_twentyfifths :
    cholO ((!![16 / 25] : Mat 1)) = some !![4 / 5] := by
  rw [cholO_fin_one (by norm_num : (0:ℝ) < 16 / 25),
    show Real.sqrt (16 / 25) = 4 / 5 by
      rw [show (16 / 25 : ℝ) = (4 / 5) ^ 2 by norm_num]
      exact Real.sqrt_sq (by norm_num)]

theorem sv_eval_three_fourths :
    constrainSvLessThanOne [(!![3 / 4] : Mat 1)] = some [!![3 / 5]] := by
  have h1 : (1 : Mat 1) + !![(3 : ℝ) / 4] * (!![(3 : ℝ) / 4])ᵀ = !![25 / 16] := by
    rw [fin_one_transpose, fin_one_mul, fin_one_one, fin_one_add]
    norm_num
  have h2 : cholO ((1 : Mat 1) + !![(3 : ℝ) / 4] * (!![(3 : ℝ) / 4])ᵀ)
      = some !![5 / 4] := by
    rw [h1, cholO_fin_one (by norm_num : (0:ℝ) < 25 / 16),
      show Real.sqrt (25 / 16) = 5 / 4 by
        rw [show (25 / 16 : ℝ) = (5 / 4) ^ 2 by norm_num]
        exact Real.sqrt_sq (by norm_num)]
  have h3 : solveTriangular (!![5 / 4] : Mat 1) !![3 / 4] = !![3 / 5] := by
    rw [solveTriangular, fin_one_inv, fin_one_mul]
    norm_num
  simp only [constrainSvLessThanOne, h2, Option.some_bind]
  rw [h3]

theorem pacf_core_eval :
    computeCoefficientsCore (fun i => ([(!![3 / 5] : Mat 1)].getD i 0)) !![1] 1
      = some (fun j => if j = 0 then (!![3 / 5] : Mat 1) else 0, !![16 / 25]) := by
  rw [computeCoefficientsCore, cholO_one_one, Option.some_bind]
  simp only [pacfLoop, Option.some_bind]
  simp only [pacfStep, solveTriangularT, List.getD_cons_zero]
  simp only [fin_one_one, fin_one_transpose, fin_one_mul, fin_one_inv, fin_one_sub,
    Finset.sum_range_zero, Matrix.mul_zero, Matrix.zero_mul, add_zero, sub_zero,
    inv_one, ite_self]
  norm_num only
  rw [cholO_sixteen_twentyfifths]
  simp only [Option.some_bind]

theorem pacf_wrapper_eval :
    computeCoefficientsFromMultivariatePacfPython
        (fun i => ([(!![3 / 5] : Mat 1)].getD i 0)) !![1] 1 true
      = some (fun j => if j = 0 then (!![3 / 5] : Mat 1) else 0, !![16 / 25]) := by
  have hx : ∀ x : Option ((ℕ → Mat 1) × Mat 1), x.bind some = x := fun x => by
    cases x <;> rfl
  calc computeCoefficientsFromMultivariatePacfPython
        (fun i => ([(!![3 / 5] : Mat 1)].getD i 0)) !![1] 1 true
      = (computeCoefficientsCore
          (fun i => ([(!![3 / 5] : Mat 1)].getD i 0)) !![1] 1).bind some := rfl
    _ = computeCoefficientsCore (fun i => ([(!![3 / 5] : Mat 1)].getD i 0)) !![1] 1 :=
        hx _
    _ = some (fun j => if j = 0 then (!![3 / 5] : Mat 1) else 0, !![16 / 25]) :=
        pacf_core_eval

/-- Evaluation: `constrain_stationary_multivariate_python([[[3/4]]], [[1]],
transform_variance=True)` evaluates to the coefficient `[[3/5]]` together
with the recursion's output variance `[[16/25]]` — not the input variance
`[[1]]`. -/
theorem constrain_eval_three_fourths :
    constrainStationaryMultivariateList [(!![3 / 4] : Mat 1)] !![1] true
      = some ([!![3 / 5]], !![16 / 25]) := by
  simp only [constrainStationaryMultivariateList, List.length_cons, List.length_nil,
    Nat.zero_add, sv_eval_three_fourths, Option.some_bind, pacf_wrapper_eval]
  rw [show List.range 1 = [0] from rfl]
  simp

/-- Claim C2 counterexample: at the stable scalar input
`x = (A, Σ) = ([[3/4]], [[1]])` with `transform_variance = True`, the round
trip `unconstrain(constrain(x))` does not return `x`: the constrain step
outputs the variance `[[16/25]]`, and the unconstrain step passes whatever
variance it receives straight through, so the variance component of the
round trip cannot be `[[1]]`. -/
theorem C2_counterexample :
    ((constrainStationaryMultivariateList [(!![3 / 4] : Mat 1)] !![1] true).bind
        fun p => unconstrainStationaryMultivariateList p.1 p.2 true)
      ≠ some ([(!![3 / 4] : Mat 1)], !![1]) := by
  rw [constrain_eval_three_fourths, Option.some_bind]
  intro h
  rcases unconstrainList_snd [(!![3 / 5] : Mat 1)] !![16 / 25] true with h0 | ⟨u, hu⟩
  · rw [h0] at h
    exact Option.noConfusion h
  · rw [hu] at h
    have hpair := Option.some.inj h
    have hv : (!![(16 : ℝ) / 25] : Mat 1) = !![1] := congrArg Prod.snd hpair
    have := fin_one_inj hv
    norm_num at this

end

end SST
